import Mathlib

/-!
Verification of the box-diagram realignment engine of the `raggedy`
repository (`src/raggedy/diagram.py`).  Python strings are modelled as
`List Char` (Python `len` counts characters, as does `List.length`);
documents are such character lists containing newline characters, and
`fix_diagrams` splits them on `'\n'` exactly as the source does.  All
widths are `Nat`; the source's `needed = w - 1 - n` values are only ever
compared with `0` and used as repetition counts when positive, so Lean's
truncated `Nat` subtraction takes the same branch and produces the same
string as Python's `int` arithmetic at every call site.
-/

set_option maxRecDepth 10000
set_option linter.unnecessarySeqFocus false

namespace Raggedy

abbrev Line := List Char

/-- ASCII whitespace stripped by Python's `str.strip` family. -/
def pyWs (c : Char) : Bool :=
  c == ' ' || c == '\t' || c == '\n' || c == '\r' ||
  c == Char.ofNat 11 || c == Char.ofNat 12

/-- Python `line.lstrip()`. -/
def lstrip (l : Line) : Line := l.dropWhile pyWs

/-- Python `line.rstrip()`. -/
def rstrip (l : Line) : Line := (l.reverse.dropWhile pyWs).reverse

/-- Python `line.strip()`. -/
def strip (l : Line) : Line := rstrip (lstrip l)

/-- Source constant `LEFT_BORDER_CHARS = set("│┌├└+|")`. -/
def LEFT_BORDER_CHARS : List Char := ['│', '┌', '├', '└', '+', '|']

/-- Source constant `RIGHT_BORDER`, the left-to-right border mapping.
The Python dict is only ever indexed at its six keys; outside them we
return the argument unchanged (that branch is unreachable at call
sites). -/
def RIGHT_BORDER (c : Char) : Char :=
  if c = '┌' then '┐'
  else if c = '├' then '┤'
  else if c = '└' then '┘'
  else if c = '│' then '│'
  else if c = '+' then '+'
  else if c = '|' then '|'
  else c

/-- Source constant `HRULE_CHARS = set("─-═")`. -/
def HRULE_CHARS : List Char := ['─', '-', '═']

/-- Source constant `HRULE_LEFT = set("┌├└+")`. -/
def HRULE_LEFT : List Char := ['┌', '├', '└', '+']

/-- Source constant `JUNCTION_CHARS = set("┬┴┼╦╩╬╤╧╪┰┸")`. -/
def JUNCTION_CHARS : List Char :=
  ['┬', '┴', '┼', '╦', '╩', '╬', '╤', '╧', '╪', '┰', '┸']

/-- Source constant `CODE_LANG_TAGS` (tags are character lists). -/
def CODE_LANG_TAGS : List Line :=
  ["python", "py", "javascript", "js", "typescript", "ts", "rust", "go",
   "java", "c", "cpp", "c++", "csharp", "cs", "ruby", "rb", "php", "perl",
   "swift", "kotlin", "scala", "haskell", "hs", "lua", "r", "sql", "bash",
   "sh", "zsh", "fish", "powershell", "ps1", "html", "css", "scss", "sass",
   "less", "xml", "json", "yaml", "yml", "toml", "ini", "conf", "cfg",
   "dockerfile", "docker", "makefile", "make", "cmake", "elixir", "ex",
   "erlang", "erl", "clojure", "clj", "ocaml", "ml", "fsharp", "fs",
   "dart", "zig", "nim", "v", "vlang", "groovy", "matlab", "julia", "jl",
   "objc", "objective-c", "assembly", "asm", "nasm", "wasm", "graphql",
   "gql", "protobuf", "proto", "thrift", "csv", "diff", "patch"].map
    String.toList

/-- Source constant `DIAGRAM_TAGS = {"text", "ascii", "diagram", "txt", ""}`. -/
def DIAGRAM_TAGS : List Line :=
  ["text", "ascii", "diagram", "txt", ""].map String.toList

/-- Helper for `_is_fence`: Python
`tag.split()[0] if tag else ""` applied to `stripped[3:].strip().lower()`. -/
def fenceTag (rest : Line) : Line :=
  ((strip rest).map Char.toLower).takeWhile (fun c => !pyWs c)

/-- Source `_is_fence(line)`: returns `(is_fence, tag)`. -/
def isFence (line : Line) : Bool × Line :=
  let s := strip line
  if ("```".toList).isPrefixOf s then (true, fenceTag (s.drop 3))
  else if ("~~~".toList).isPrefixOf s then (true, fenceTag (s.drop 3))
  else (false, [])

/-- Loop body of `_is_diagram_block`: blank lines are skipped, a
left-border first character bumps the count, and the line's characters
are scanned for a horizontal rule character. -/
def diagStep (acc : Nat × Bool) (line : Line) : Nat × Bool :=
  match lstrip line with
  | [] => acc
  | c :: rest =>
      ((if c ∈ LEFT_BORDER_CHARS then acc.1 + 1 else acc.1),
       acc.2 || (c :: rest).any (· ∈ HRULE_CHARS))

/-- Source `_is_diagram_block(lines)`: at least three left-trimmed lines
start with a left-border character, and some character is a horizontal
rule character. -/
def isDiagramBlock (lines : List Line) : Bool :=
  let r := lines.foldl diagStep (0, false)
  decide (3 ≤ r.1) && r.2

/-- Source `_split_groups(lines)`: maximal runs of consecutive lines whose
left-trimmed form starts with a left-border character, with original
indices. -/
def splitGroupsAux : List Line → Nat → List (Nat × Line) →
    List (List (Nat × Line))
  | [], _, cur => if cur = [] then [] else [cur]
  | line :: rest, i, cur =>
      match lstrip line with
      | c :: _ =>
          if c ∈ LEFT_BORDER_CHARS then
            splitGroupsAux rest (i + 1) (cur ++ [(i, line)])
          else if cur = [] then splitGroupsAux rest (i + 1) []
          else cur :: splitGroupsAux rest (i + 1) []
      | [] =>
          if cur = [] then splitGroupsAux rest (i + 1) []
          else cur :: splitGroupsAux rest (i + 1) []

def splitGroups (lines : List Line) : List (List (Nat × Line)) :=
  splitGroupsAux lines 0 []

/-- Source `_find_fill_char(line)`: first horizontal-rule character,
default `─`. -/
def findFillChar (line : Line) : Char :=
  match line.find? (· ∈ HRULE_CHARS) with
  | some c => c
  | none => '─'

/-- Index of the last junction character at a position `> 0`, if any
(Python scans `range(len(s)-1, 0, -1)` and stops at the first hit, which
is the largest such index; index `0` is never inspected and the
`last_junction > 0` guard keeps only positive hits). -/
def lastJunction (s : Line) : Option Nat :=
  ((List.range s.length).filter
    (fun i => decide (0 < i) && decide ((s.getD i ' ') ∈ JUNCTION_CHARS))).getLast?

/-- Shared opening of `_fix_hrule_line` and `_fix_content_line`:
right-trim, then drop an existing trailing right border character. -/
def dropRB (line : Line) (rightChar : Char) : Line :=
  let s0 := rstrip line
  if s0.getLast? = some rightChar then s0.dropLast else s0

/-- Source `_fix_hrule_line(line, target_width, left_char)`. -/
def fixHruleLine (line : Line) (targetWidth : Nat) (leftChar : Char) : Line :=
  let rightChar := RIGHT_BORDER leftChar
  let s := dropRB line rightChar
  let fill := findFillChar s
  match lastJunction s with
  | some p =>
      let kept := s.take (p + 1)
      let needed := targetWidth - 1 - kept.length
      if 0 < needed then kept ++ List.replicate needed fill ++ [rightChar]
      else kept ++ [rightChar]
  | none =>
      let needed := targetWidth - 1 - s.length
      if 0 < needed then s ++ List.replicate needed fill ++ [rightChar]
      else s ++ [rightChar]

/-- Source `_fix_content_line(line, target_width, left_char)`. -/
def fixContentLine (line : Line) (targetWidth : Nat) (leftChar : Char) : Line :=
  let rightChar := RIGHT_BORDER leftChar
  let s := dropRB line rightChar
  let needed := targetWidth - 1 - s.length
  if 0 < needed then s ++ List.replicate needed ' ' ++ [rightChar]
  else s ++ [rightChar]

/-- One line's contribution to the group target width (first pass of
`_fix_group`); `none` for blank lines, which are skipped. -/
def lineEffWidth (line : Line) : Option Nat :=
  match lstrip line with
  | [] => none
  | first :: _ =>
      let r := rstrip line
      if first ∈ LEFT_BORDER_CHARS ∧ r.getLast? ≠ some (RIGHT_BORDER first)
      then some (r.length + 1) else some r.length

/-- Group target width: `max(effective_widths) if effective_widths else 0`. -/
def targetWidth (lines : List Line) : Nat :=
  (lines.filterMap lineEffWidth).foldr max 0

/-- Per-line rewrite of the second pass of `_fix_group` (the loop body
producing `leading + fixed`). -/
def fixGroupLine (tw : Nat) (line : Line) : Line :=
  match lstrip line with
  | [] => line
  | first :: _ =>
      let stripped := lstrip line
      let leading := line.take (line.length - stripped.length)
      if first ∈ HRULE_LEFT then
        leading ++ fixHruleLine stripped (tw - leading.length) first
      else if first = '│' ∨ first = '|' then
        leading ++ fixContentLine stripped (tw - leading.length) first
      else if first ∈ LEFT_BORDER_CHARS then
        let rightChar := RIGHT_BORDER first
        let fs := dropRB stripped rightChar
        let needed := tw - leading.length - 1 - fs.length
        if 0 < needed then
          leading ++ fs ++ List.replicate needed ' ' ++ [rightChar]
        else leading ++ fs ++ [rightChar]
      else leading ++ stripped

/-- First and second pass of `_fix_group` (everything before the
`_fix_nested_in_group` call). -/
def fixGroupPass (group : List (Nat × Line)) : List (Nat × Line) :=
  let tw := targetWidth (group.map (·.2))
  group.map (fun p => (p.1, fixGroupLine tw p.2))

/-- Re-wrapping step of `_fix_nested_in_group`: a repaired inner line is
skipped when longer than the inner width, otherwise padded with trailing
spaces to the inner width and re-assembled between `run[0][1][0]` and the
outer right border character at its original run position. -/
def rewrapStep (runHead : Line) (outerRight : Char) (innerWidth i : Nat)
    (acc : List (Nat × Line)) (q : Nat × Line) : List (Nat × Line) :=
  if innerWidth < q.2.length then acc
  else
    let padded := q.2 ++ List.replicate (innerWidth - q.2.length) ' '
    let newLine := runHead.headD ' ' :: (padded ++ [outerRight])
    acc.set (i + q.1) ((acc.getD (i + q.1) (0, [])).1, newLine)

/-- End of the run of consecutive lines whose left-trimmed form starts
with `outer`, scanning from index `i` (the inner `while` of
`_fix_nested_in_group`); `k` counts remaining iterations and is started
at `res.length - i`, which the scan can never exceed. -/
def runEndK : Nat → List (Nat × Line) → Char → Nat → Nat
  | 0, _, _, i => i
  | k + 1, res, outer, i =>
      if i < res.length then
        match lstrip (res.getD i (0, [])).2 with
        | c :: _ => if c = outer then runEndK k res outer (i + 1) else i
        | [] => i
      else i

def runEnd (res : List (Nat × Line)) (outer : Char) (i : Nat) : Nat :=
  runEndK (res.length - i) res outer i

/-- Loop of `_fix_nested_in_group` from index `i`, parameterised by the
group-fixing function `fixg` applied to inner groups (the source calls
`_fix_group` there; `fixGroupF` below instantiates `fixg` with itself at
one less fuel).  `k` counts remaining iterations: the Python `while`
advances `i` by at least one per pass and the line replacements preserve
the list length, so starting `k` at the list length makes this agree
with the unbounded loop. -/
def fixNestedLoopWith (fixg : List (Nat × Line) → List (Nat × Line)) :
    Nat → List (Nat × Line) → Nat → List (Nat × Line)
  | 0, res, _ => res
  | k + 1, res, i =>
    if i < res.length then
      match lstrip (res.getD i (0, [])).2 with
      | [] => fixNestedLoopWith fixg k res (i + 1)
      | c :: _ =>
        if c = '│' ∨ c = '|' then
          let outerRight := RIGHT_BORDER c
          let re := runEnd res c i
          if re - i < 3 then fixNestedLoopWith fixg k res re
          else
            let run := (res.drop i).take (re - i)
            let inner := run.map (fun p =>
              if 2 ≤ p.2.length ∧ p.2.getLast? = some outerRight
              then (p.2.drop 1).dropLast else p.2.drop 1)
            if !(isDiagramBlock inner) then fixNestedLoopWith fixg k res re
            else
              let outerWidth := (run.headD (0, [])).2.length
              let innerWidth := outerWidth - 2
              let res' := (splitGroups inner).foldl (fun acc g =>
                (fixg g).foldl
                  (rewrapStep (run.headD (0, [])).2 outerRight innerWidth i)
                  acc) res
              fixNestedLoopWith fixg k res' re
        else fixNestedLoopWith fixg k res (i + 1)
    else res

/-- Source `_fix_group(group)`, with explicit fuel for the recursion
through `_fix_nested_in_group`: every recursive call works on inner
lines strictly shorter than the current group's lines, so the Python
recursion depth is bounded by the group's character count and the fuel
passed by `fixGroup` below never runs out. -/
def fixGroupF : Nat → List (Nat × Line) → List (Nat × Line)
  | 0, group => fixGroupPass group
  | n + 1, group =>
      let fixedGroup := fixGroupPass group
      fixNestedLoopWith (fixGroupF n) fixedGroup.length fixedGroup 0

/-- Source `_fix_group(group)`: ample fuel (one plus the total character
count of the group, an upper bound on the nesting recursion depth). -/
def fixGroup (group : List (Nat × Line)) : List (Nat × Line) :=
  fixGroupF ((group.map (·.2.length)).foldr (· + ·) 0 + 1) group

/-- Source `_fix_nested_in_group(fixed_group)`: the inner groups are
repaired with `_fix_group`. -/
def fixNestedInGroup (fixedGroup : List (Nat × Line)) :
    List (Nat × Line) :=
  fixNestedLoopWith fixGroup fixedGroup.length fixedGroup 0

/-- Python `text.split("\n")`. -/
def splitNL : Line → List Line
  | [] => [[]]
  | c :: rest =>
      if c = '\n' then [] :: splitNL rest
      else
        match splitNL rest with
        | hd :: tl => (c :: hd) :: tl
        | [] => [[c]]

/-- Python `text.endswith("\n")`. -/
def endsWithNL (t : Line) : Bool := t.getLast? = some '\n'

/-- Python `result.rstrip("\n")`: removes every trailing newline. -/
def dropTrailingNL (t : Line) : Line :=
  (t.reverse.dropWhile (· = '\n')).reverse

/-- Splice the fixed groups of a processed block back into the document
lines (the `should_process` branch of `fix_diagrams`). -/
def spliceGroups (lines : List Line) (fenceStart : Nat) (block : List Line) :
    List Line :=
  (splitGroups block).foldl (fun acc g =>
    (fixGroup g).foldl (fun a p => a.set (fenceStart + 1 + p.1) p.2) acc) lines

/-- Closing-fence step of the `fix_diagrams` scan: extract the block,
decide `should_process`, and splice the fixed groups back if it holds. -/
def processClose (lines : List Line) (tag : Line) (fenceStart i : Nat) :
    List Line :=
  let block := (lines.drop (fenceStart + 1)).take (i - (fenceStart + 1))
  if tag ∈ DIAGRAM_TAGS ∧ tag ∉ CODE_LANG_TAGS ∧ isDiagramBlock block then
    spliceGroups lines fenceStart block
  else lines

/-- Scan loop of `fix_diagrams`.  `k` counts the remaining iterations:
the Python `while` advances `i` by exactly one each pass and the line
replacements preserve the number of lines, so running it `len(lines)`
iterations from `i = 0` is the whole loop.  The Python `-1` sentinel for
`fence_start` is modelled by `0`, which is never read while `inFence` is
`false`. -/
def scanLoop : Nat → List Line → Nat → Bool → Line → Nat → List Line
  | 0, lines, _, _, _, _ => lines
  | k + 1, lines, i, inFence, tag, fenceStart =>
      let p := isFence (lines.getD i [])
      if inFence then
        if p.1 then
          scanLoop k (processClose lines tag fenceStart i) (i + 1) false [] 0
        else scanLoop k lines (i + 1) true tag fenceStart
      else
        if p.1 then scanLoop k lines (i + 1) true p.2 i
        else scanLoop k lines (i + 1) false tag fenceStart

/-- Source `fix_diagrams(text)`. -/
def fixDiagrams (text : Line) : Line :=
  let lines := splitNL text
  let ewn := endsWithNL text
  let fixedLines := scanLoop lines.length lines 0 false [] 0
  let result := List.intercalate ['\n'] fixedLines
  if ewn && !(endsWithNL result) then result ++ ['\n']
  else if !ewn && endsWithNL result then dropTrailingNL result
  else result

/-! ### Spec-side predicates used by the claims -/

/-- A line that starts, after left-trimming, with a left-border
character (the claims' border-start predicate). -/
def borderStart (l : Line) : Bool :=
  match lstrip l with
  | [] => false
  | c :: _ => c ∈ LEFT_BORDER_CHARS

/-- A line containing a horizontal-rule character anywhere. -/
def hasHruleChar (l : Line) : Bool := l.any (· ∈ HRULE_CHARS)

/-! ### C8: the diagram heuristic -/

theorem pyWs_not_hrule (c : Char) (h : pyWs c = true) :
    (decide (c ∈ HRULE_CHARS)) = false := by
  simp only [pyWs, Bool.or_eq_true, beq_iff_eq] at h
  rcases h with ((((h | h) | h) | h) | h) | h <;> subst h <;> decide

theorem any_hrule_lstrip (l : Line) :
    (lstrip l).any (· ∈ HRULE_CHARS) = l.any (· ∈ HRULE_CHARS) := by
  induction l with
  | nil => rfl
  | cons c r ih =>
      by_cases hc : pyWs c = true
      · have hnot := pyWs_not_hrule c hc
        simp only [lstrip, List.dropWhile_cons, hc, if_true, List.any_cons,
          hnot, Bool.false_or]
        exact ih
      · simp [lstrip, List.dropWhile_cons, hc]

theorem diag_foldl (lines : List Line) (a : Nat) (b : Bool) :
    lines.foldl diagStep (a, b) =
      (a + lines.countP borderStart,
       b || lines.any (fun l => (lstrip l).any (· ∈ HRULE_CHARS))) := by
  induction lines generalizing a b with
  | nil => simp
  | cons l rest ih =>
      simp only [List.foldl_cons, List.countP_cons, List.any_cons]
      rcases h : lstrip l with _ | ⟨c, cs⟩
      · have hb : borderStart l = false := by simp [borderStart, h]
        have hh : (lstrip l).any (· ∈ HRULE_CHARS) = false := by simp [h]
        rw [show diagStep (a, b) l = (a, b) by simp [diagStep, h]]
        rw [ih]
        simp [hb, hh]
      · have hb : borderStart l = (decide (c ∈ LEFT_BORDER_CHARS)) := by
          simp [borderStart, h]
        have hh : (lstrip l).any (· ∈ HRULE_CHARS) =
            (c :: cs).any (· ∈ HRULE_CHARS) := by rw [h]
        rw [show diagStep (a, b) l =
          ((if c ∈ LEFT_BORDER_CHARS then a + 1 else a),
           b || (c :: cs).any (· ∈ HRULE_CHARS)) by simp [diagStep, h]]
        rw [ih, hb]
        rw [Prod.mk.injEq]
        constructor
        · by_cases hc : c ∈ LEFT_BORDER_CHARS <;> simp [hc] <;> omega
        · cases b <;> simp [Bool.or_assoc]

/-- Characterization of `_is_diagram_block` via a line count and a
character search (shared helper). -/
theorem isDiagramBlock_count (lines : List Line) :
    isDiagramBlock lines = true ↔
      3 ≤ lines.countP borderStart ∧ lines.any hasHruleChar = true := by
  unfold isDiagramBlock
  rw [diag_foldl]
  have hc : lines.any (fun l => (lstrip l).any (· ∈ HRULE_CHARS)) =
      lines.any hasHruleChar := by
    induction lines with
    | nil => rfl
    | cons l rest ih =>
        rw [List.any_cons, List.any_cons, any_hrule_lstrip, ih]
        simp [hasHruleChar]
  simp [hc]

/-- C8: `_is_diagram_block` returns true iff at least three lines start
(after left-trim) with a left-border character and at least one
character anywhere in the lines is a horizontal-rule character. -/
theorem c8_diagram_heuristic (lines : List Line) :
    isDiagramBlock lines = true ↔
      3 ≤ (lines.filter borderStart).length ∧
      ∃ l ∈ lines, ∃ c ∈ l, c ∈ HRULE_CHARS := by
  rw [isDiagramBlock_count, List.countP_eq_length_filter]
  simp [hasHruleChar, List.any_eq_true]

/-! ### C9: newline fidelity -/

theorem head?_dropWhile_false {p : Char → Bool} (l : Line) (a : Char)
    (h : (l.dropWhile p).head? = some a) : p a = false := by
  induction l with
  | nil => simp at h
  | cons c r ih =>
      by_cases hc : p c = true
      · rw [List.dropWhile_cons, if_pos hc] at h
        exact ih h
      · rw [List.dropWhile_cons, if_neg hc] at h
        simp at h
        subst h
        simpa using hc

theorem endsWithNL_dropTrailingNL (t : Line) :
    endsWithNL (dropTrailingNL t) = false := by
  unfold endsWithNL dropTrailingNL
  rcases h : (t.reverse.dropWhile (· = '\n')).reverse.getLast? with _ | a
  · simp [h]
  · have hh : (t.reverse.dropWhile (· = '\n')).head? = some a := by
      rw [← List.getLast?_reverse]
      exact h
    have := head?_dropWhile_false (p := (· = '\n')) t.reverse a hh
    simp at this
    simp [h, this]

theorem endsWithNL_append_nl (t : Line) : endsWithNL (t ++ ['\n']) = true := by
  simp [endsWithNL]

/-- C9: the output of `fix_diagrams` ends with a newline iff the input
does. -/
theorem fixDiagrams_newline_fidelity (text : Line) :
    endsWithNL (fixDiagrams text) = endsWithNL text := by
  unfold fixDiagrams
  simp only []
  by_cases h1 : endsWithNL text <;>
    by_cases h2 : endsWithNL (List.intercalate ['\n']
      (scanLoop (splitNL text).length (splitNL text) 0 false [] 0)) <;>
    simp [h1, h2, endsWithNL_append_nl, endsWithNL_dropTrailingNL]

/-! ### C10: the left-border set splits into rule and content starters -/

/-- Two-branch variant of the second-pass line rewrite with the generic
fallback for other border-prefixed lines removed: to be compared with
`fixGroupLine` on border-starting lines. -/
def fixGroupLineTwoBranch (tw : Nat) (line : Line) : Line :=
  match lstrip line with
  | [] => line
  | first :: _ =>
      let stripped := lstrip line
      let leading := line.take (line.length - stripped.length)
      if first ∈ HRULE_LEFT then
        leading ++ fixHruleLine stripped (tw - leading.length) first
      else leading ++ fixContentLine stripped (tw - leading.length) first

/-- C10: the left-border set is exactly the union of the horizontal-rule
starters and the vertical content characters, hence on border-starting
lines the second pass of `_fix_group` always takes the horizontal-rule
branch or the content branch and never its generic fallback. -/
theorem leftBorder_split_no_fallback :
    (∀ c, c ∈ LEFT_BORDER_CHARS ↔ c ∈ HRULE_LEFT ∨ c = '│' ∨ c = '|') ∧
    ∀ tw line, borderStart line = true →
      fixGroupLine tw line = fixGroupLineTwoBranch tw line := by
  constructor
  · intro c
    simp only [LEFT_BORDER_CHARS, HRULE_LEFT, List.mem_cons,
      List.not_mem_nil, or_false]
    tauto
  · intro tw line h
    unfold borderStart at h
    rcases hs : lstrip line with _ | ⟨first, rest⟩
    · rw [hs] at h
      simp at h
    · rw [hs] at h
      simp only [decide_eq_true_eq] at h
      unfold fixGroupLine fixGroupLineTwoBranch
      rw [hs]
      simp only [LEFT_BORDER_CHARS] at h
      fin_cases h <;> simp [HRULE_LEFT]

/-- Witness for `leftBorder_split_no_fallback`. -/
theorem leftBorder_split_no_fallback_witness :
    borderStart ("│ x".toList) = true ∧
    fixGroupLine 5 ("│ x".toList) = fixGroupLineTwoBranch 5 ("│ x".toList) :=
  ⟨by decide, leftBorder_split_no_fallback.2 5 _ (by decide)⟩

/-! ### C4: horizontal-rule repair -/

theorem lastJunction_bounds (s : Line) (p : Nat)
    (h : lastJunction s = some p) : 0 < p ∧ p < s.length := by
  unfold lastJunction at h
  have hmem : p ∈ (List.range s.length).filter
      (fun i => decide (0 < i) && decide ((s.getD i ' ') ∈ JUNCTION_CHARS)) := by
    have h' : p ∈ ((List.range s.length).filter
        (fun i => decide (0 < i) &&
          decide ((s.getD i ' ') ∈ JUNCTION_CHARS))).getLast? := by
      rw [h]; rfl
    obtain ⟨hne, heq⟩ := List.mem_getLast?_eq_getLast h'
    rw [heq]
    exact List.getLast_mem hne
  simp only [List.mem_filter, List.mem_range, Bool.and_eq_true,
    decide_eq_true_eq] at hmem
  exact ⟨hmem.2.1, hmem.1⟩

/-- C4: on a horizontal-rule line the repairer right-trims, drops a
trailing right border, and when the last interior junction sits at
position `p > 0` within the width it keeps everything through `p` and
pads positions `p+1` through `width-1` with the fill character before
appending the right border; with no junction it pads the whole trimmed
line the same way; and the short rule of Scenario 2 grouped with
`│ content │` becomes `├─────────┤`. -/
theorem fixHruleLine_spec :
    (∀ line tw c p, lastJunction (dropRB line (RIGHT_BORDER c)) = some p →
        p + 1 ≤ tw - 1 →
        fixHruleLine line tw c =
          (dropRB line (RIGHT_BORDER c)).take (p + 1) ++
          List.replicate (tw - 1 - (p + 1))
            (findFillChar (dropRB line (RIGHT_BORDER c))) ++
          [RIGHT_BORDER c]) ∧
    (∀ line tw c, lastJunction (dropRB line (RIGHT_BORDER c)) = none →
        (dropRB line (RIGHT_BORDER c)).length ≤ tw - 1 →
        fixHruleLine line tw c =
          dropRB line (RIGHT_BORDER c) ++
          List.replicate (tw - 1 - (dropRB line (RIGHT_BORDER c)).length)
            (findFillChar (dropRB line (RIGHT_BORDER c))) ++
          [RIGHT_BORDER c]) ∧
    fixGroup [(0, "├───┤".toList), (1, "│ content │".toList)] =
      [(0, "├─────────┤".toList), (1, "│ content │".toList)] := by
  refine ⟨?_, ?_, by decide⟩
  · intro line tw c p hj hle
    have hp := lastJunction_bounds _ _ hj
    simp only [fixHruleLine]
    rw [hj]
    dsimp only
    have hklen : ((dropRB line (RIGHT_BORDER c)).take (p + 1)).length = p + 1 := by
      rw [List.length_take]
      omega
    rw [hklen]
    by_cases h0 : 0 < tw - 1 - (p + 1)
    · rw [if_pos h0]
    · rw [if_neg h0]
      have : tw - 1 - (p + 1) = 0 := by omega
      rw [this]
      simp
  · intro line tw c hj hle
    simp only [fixHruleLine]
    rw [hj]
    dsimp only
    by_cases h0 : 0 < tw - 1 - (dropRB line (RIGHT_BORDER c)).length
    · rw [if_pos h0]
    · rw [if_neg h0]
      have : tw - 1 - (dropRB line (RIGHT_BORDER c)).length = 0 := by omega
      rw [this]
      simp

/-- Witness for `fixHruleLine_spec`. -/
theorem fixHruleLine_spec_witness :
    lastJunction (dropRB ("├─┬─┤".toList) (RIGHT_BORDER '├')) = some 2 ∧
    2 + 1 ≤ 8 - 1 ∧
    fixHruleLine ("├─┬─┤".toList) 8 '├' = "├─┬────┤".toList :=
  ⟨by decide, by decide, by
    rw [fixHruleLine_spec.1 ("├─┬─┤".toList) 8 '├' 2 (by decide) (by decide)]
    decide⟩

/-! ### Width machinery for C2 and C3 -/

theorem borderChar_not_ws (c : Char) (h : c ∈ LEFT_BORDER_CHARS) :
    pyWs c = false := by
  fin_cases h <;> decide

theorem dropWhile_length_le (p : Char → Bool) (l : Line) :
    (l.dropWhile p).length ≤ l.length := by
  induction l with
  | nil => simp
  | cons c r ih =>
      rw [List.dropWhile_cons]
      by_cases hc : p c = true
      · rw [if_pos hc]; simp; omega
      · rw [if_neg hc]

theorem rstrip_ne_nil (c : Char) (r : Line) (hc : pyWs c = false) :
    rstrip (c :: r) ≠ [] := by
  intro h
  unfold rstrip at h
  have h2 : (c :: r).reverse.dropWhile pyWs = [] := by
    cases hx : (c :: r).reverse.dropWhile pyWs
    · rfl
    · rw [hx] at h; simp at h
  rw [List.dropWhile_eq_nil_iff] at h2
  have h3 := h2 c (by simp)
  rw [hc] at h3
  exact Bool.false_ne_true h3

theorem rstrip_append (a b : Line) (h : rstrip b ≠ []) :
    rstrip (a ++ b) = a ++ rstrip b := by
  unfold rstrip at h ⊢
  rw [List.reverse_append, List.dropWhile_append]
  have hne : (b.reverse.dropWhile pyWs).isEmpty = false := by
    cases hx : b.reverse.dropWhile pyWs
    · exfalso; apply h; rw [hx]; rfl
    · rfl
  rw [hne]
  simp

theorem line_decomp (line : Line) :
    line = line.takeWhile pyWs ++ lstrip line :=
  (List.takeWhile_append_dropWhile pyWs line).symm

theorem leading_eq (line : Line) :
    line.take (line.length - (lstrip line).length) = line.takeWhile pyWs := by
  unfold lstrip
  induction line with
  | nil => rfl
  | cons c r ih =>
      by_cases hc : pyWs c = true
      · rw [List.dropWhile_cons, if_pos hc]
        have hle := dropWhile_length_le pyWs r
        have hlen : (c :: r).length - (r.dropWhile pyWs).length =
            (r.length - (r.dropWhile pyWs).length) + 1 := by
          simp only [List.length_cons]; omega
        rw [hlen, List.take_succ_cons, ih, List.takeWhile_cons, hc]
        simp
      · rw [List.dropWhile_cons, if_neg hc, List.takeWhile_cons]
        simp [hc]

theorem rstrip_line_decomp (line : Line) (hne : rstrip (lstrip line) ≠ []) :
    rstrip line = line.takeWhile pyWs ++ rstrip (lstrip line) := by
  conv_lhs => rw [line_decomp line]
  exact rstrip_append _ _ hne

theorem fixContentLine_length (line : Line) (w : Nat) (c : Char)
    (h1 : (dropRB line (RIGHT_BORDER c)).length ≤ w - 1) (h2 : 1 ≤ w) :
    (fixContentLine line w c).length = w := by
  simp only [fixContentLine]
  by_cases h0 : 0 < w - 1 - (dropRB line (RIGHT_BORDER c)).length
  · rw [if_pos h0]
    simp only [List.length_append, List.length_replicate, List.length_cons,
      List.length_nil]
    omega
  · rw [if_neg h0]
    simp only [List.length_append, List.length_cons, List.length_nil]
    omega

theorem fixHruleLine_length (line : Line) (w : Nat) (c : Char)
    (h1 : (dropRB line (RIGHT_BORDER c)).length ≤ w - 1) (h2 : 1 ≤ w) :
    (fixHruleLine line w c).length = w := by
  simp only [fixHruleLine]
  rcases hj : lastJunction (dropRB line (RIGHT_BORDER c)) with _ | p
  · dsimp only
    by_cases h0 : 0 < w - 1 - (dropRB line (RIGHT_BORDER c)).length
    · rw [if_pos h0]
      simp only [List.length_append, List.length_replicate, List.length_cons,
        List.length_nil]
      omega
    · rw [if_neg h0]
      simp only [List.length_append, List.length_cons, List.length_nil]
      omega
  · dsimp only
    have hp := lastJunction_bounds _ _ hj
    have hk : ((dropRB line (RIGHT_BORDER c)).take (p + 1)).length = p + 1 := by
      rw [List.length_take]
      omega
    rw [hk]
    by_cases h0 : 0 < w - 1 - (p + 1)
    · rw [if_pos h0]
      simp only [List.length_append, List.length_replicate, List.length_cons,
        List.length_nil, hk]
      omega
    · rw [if_neg h0]
      simp only [List.length_append, List.length_cons, List.length_nil, hk]
      omega

theorem fixGroupLine_length (tw : Nat) (line : Line) (e : Nat)
    (hb : borderStart line = true)
    (he : lineEffWidth line = some e) (hle : e ≤ tw) :
    (fixGroupLine tw line).length = tw := by
  unfold borderStart at hb
  rcases hs : lstrip line with _ | ⟨first, rest⟩
  · rw [hs] at hb; simp at hb
  · rw [hs] at hb
    simp only [decide_eq_true_eq] at hb
    have hcw := borderChar_not_ws first hb
    have hrne : rstrip (lstrip line) ≠ [] := by
      rw [hs]; exact rstrip_ne_nil _ _ hcw
    have ht1 : 1 ≤ (rstrip (lstrip line)).length := List.length_pos.mpr hrne
    have hdec : rstrip line = line.takeWhile pyWs ++ rstrip (lstrip line) :=
      rstrip_line_decomp line hrne
    have hstlen : (lstrip line).length ≤ line.length :=
      dropWhile_length_le pyWs line
    have htw : (line.takeWhile pyWs).length =
        line.length - (lstrip line).length := by
      have h1 : (line.takeWhile pyWs).length + (lstrip line).length =
          line.length := by
        conv_rhs => rw [line_decomp line]
        rw [List.length_append]
      omega
    have hrlen : (rstrip line).length =
        (line.length - (lstrip line).length) + (rstrip (lstrip line)).length := by
      rw [hdec, List.length_append, htw]
    have hlast : (rstrip line).getLast? = (rstrip (lstrip line)).getLast? := by
      rw [hdec]; exact List.getLast?_append_of_ne_nil _ hrne
    unfold lineEffWidth at he
    rw [hs] at he
    dsimp only at he
    rw [hlast] at he
    have hrs : rstrip (first :: rest) = rstrip (lstrip line) := by rw [hs]
    -- length of the dropped-border form, and the effective width value
    by_cases hends :
        (rstrip (lstrip line)).getLast? = some (RIGHT_BORDER first)
    case pos =>
      rw [if_neg (by simp [hb, hends])] at he
      have hval : e = (line.length - (lstrip line).length) +
          (rstrip (lstrip line)).length := by
        have := Option.some.inj he
        omega
      have hdlen : (dropRB (first :: rest) (RIGHT_BORDER first)).length =
          (rstrip (lstrip line)).length - 1 := by
        unfold dropRB
        rw [hrs, if_pos hends, List.length_dropLast]
      -- dispatch on the six border characters
      have hgoal : ∀ fx : Line, fx.length =
            tw - (line.length - (lstrip line).length) →
          (line.take (line.length - (first :: rest).length) ++ fx).length =
            tw := by
        intro fx hfx
        rw [List.length_append, ← hs, List.length_take, hfx]
        omega
      simp only [fixGroupLine]
      rw [hs]
      dsimp only
      have hlena : (line.take (line.length - (first :: rest).length)).length =
          line.length - (lstrip line).length := by
        rw [← hs, List.length_take]
        omega
      fin_cases hb
      · rw [if_neg (by decide), if_pos (by decide)]
        refine hgoal _ ?_
        rw [hlena]
        refine fixContentLine_length _ _ _ ?_ ?_ <;> (try rw [hdlen]) <;> omega
      · rw [if_pos (by decide)]
        refine hgoal _ ?_
        rw [hlena]
        refine fixHruleLine_length _ _ _ ?_ ?_ <;> (try rw [hdlen]) <;> omega
      · rw [if_pos (by decide)]
        refine hgoal _ ?_
        rw [hlena]
        refine fixHruleLine_length _ _ _ ?_ ?_ <;> (try rw [hdlen]) <;> omega
      · rw [if_pos (by decide)]
        refine hgoal _ ?_
        rw [hlena]
        refine fixHruleLine_length _ _ _ ?_ ?_ <;> (try rw [hdlen]) <;> omega
      · rw [if_pos (by decide)]
        refine hgoal _ ?_
        rw [hlena]
        refine fixHruleLine_length _ _ _ ?_ ?_ <;> (try rw [hdlen]) <;> omega
      · rw [if_neg (by decide), if_pos (by decide)]
        refine hgoal _ ?_
        rw [hlena]
        refine fixContentLine_length _ _ _ ?_ ?_ <;> (try rw [hdlen]) <;> omega
    case neg =>
      rw [if_pos (by exact ⟨hb, by simpa using hends⟩)] at he
      have hval : e = (line.length - (lstrip line).length) +
          (rstrip (lstrip line)).length + 1 := by
        have := Option.some.inj he
        omega
      have hdlen : (dropRB (first :: rest) (RIGHT_BORDER first)).length =
          (rstrip (lstrip line)).length := by
        unfold dropRB
        rw [hrs, if_neg hends]
      have hgoal : ∀ fx : Line, fx.length =
            tw - (line.length - (lstrip line).length) →
          (line.take (line.length - (first :: rest).length) ++ fx).length =
            tw := by
        intro fx hfx
        rw [List.length_append, ← hs, List.length_take, hfx]
        omega
      simp only [fixGroupLine]
      rw [hs]
      dsimp only
      have hlena : (line.take (line.length - (first :: rest).length)).length =
          line.length - (lstrip line).length := by
        rw [← hs, List.length_take]
        omega
      fin_cases hb
      · rw [if_neg (by decide), if_pos (by decide)]
        refine hgoal _ ?_
        rw [hlena]
        refine fixContentLine_length _ _ _ ?_ ?_ <;> (try rw [hdlen]) <;> omega
      · rw [if_pos (by decide)]
        refine hgoal _ ?_
        rw [hlena]
        refine fixHruleLine_length _ _ _ ?_ ?_ <;> (try rw [hdlen]) <;> omega
      · rw [if_pos (by decide)]
        refine hgoal _ ?_
        rw [hlena]
        refine fixHruleLine_length _ _ _ ?_ ?_ <;> (try rw [hdlen]) <;> omega
      · rw [if_pos (by decide)]
        refine hgoal _ ?_
        rw [hlena]
        refine fixHruleLine_length _ _ _ ?_ ?_ <;> (try rw [hdlen]) <;> omega
      · rw [if_pos (by decide)]
        refine hgoal _ ?_
        rw [hlena]
        refine fixHruleLine_length _ _ _ ?_ ?_ <;> (try rw [hdlen]) <;> omega
      · rw [if_neg (by decide), if_pos (by decide)]
        refine hgoal _ ?_
        rw [hlena]
        refine fixContentLine_length _ _ _ ?_ ?_ <;> (try rw [hdlen]) <;> omega

theorem le_foldr_max (x : Nat) (xs : List Nat) (h : x ∈ xs) :
    x ≤ xs.foldr max 0 := by
  induction xs with
  | nil => simp at h
  | cons a as ih =>
      rcases List.mem_cons.mp h with h | h
      · subst h; exact le_max_left _ _
      · exact le_trans (ih h) (le_max_right _ _)

theorem le_targetWidth (lines : List Line) (l : Line) (e : Nat)
    (hl : l ∈ lines) (he : lineEffWidth l = some e) :
    e ≤ targetWidth lines := by
  unfold targetWidth
  exact le_foldr_max _ _ (List.mem_filterMap.mpr ⟨l, hl, he⟩)

theorem borderStart_effWidth (l : Line) (hb : borderStart l = true) :
    ∃ e, lineEffWidth l = some e := by
  unfold borderStart at hb
  unfold lineEffWidth
  rcases hs : lstrip l with _ | ⟨c, r⟩
  · rw [hs] at hb; simp at hb
  · dsimp only
    split
    · exact ⟨_, rfl⟩
    · exact ⟨_, rfl⟩

theorem fixGroupPass_uniform (g : List (Nat × Line))
    (hg : ∀ p ∈ g, borderStart p.2 = true) :
    ∀ q ∈ fixGroupPass g, q.2.length = targetWidth (g.map (·.2)) := by
  intro q hq
  simp only [fixGroupPass] at hq
  rw [List.mem_map] at hq
  obtain ⟨p, hp, rfl⟩ := hq
  dsimp only
  obtain ⟨e, he⟩ := borderStart_effWidth p.2 (hg p hp)
  exact fixGroupLine_length _ _ e (hg p hp) he
    (le_targetWidth _ p.2 e (List.mem_map.mpr ⟨p, hp, rfl⟩) he)

theorem fixGroupPass_length (g : List (Nat × Line)) :
    (fixGroupPass g).length = g.length := by
  simp [fixGroupPass]

theorem borderStart_ne_nil (l : Line) (h : borderStart l = true) : l ≠ [] := by
  intro he
  subst he
  simp [borderStart, lstrip] at h

theorem headD_mem {α : Type} (l : List α) (d : α) (h : l ≠ []) :
    l.headD d ∈ l := by
  cases l with
  | nil => exact absurd rfl h
  | cons a as => simp

theorem rewrapStep_uniform (rh : Line) (oright : Char) (iw i W : Nat)
    (hW : iw + 2 = W) (acc : List (Nat × Line))
    (hacc : ∀ q ∈ acc, q.2.length = W) (q0 : Nat × Line) :
    ∀ q ∈ rewrapStep rh oright iw i acc q0, q.2.length = W := by
  intro q hq
  unfold rewrapStep at hq
  by_cases hc : iw < q0.2.length
  · rw [if_pos hc] at hq
    exact hacc q hq
  · rw [if_neg hc] at hq
    dsimp only at hq
    rcases List.mem_or_eq_of_mem_set hq with h | h
    · exact hacc q h
    · rw [h]
      simp only [List.length_cons, List.length_append, List.length_replicate,
        List.length_nil]
      omega

theorem foldl_rewrap_uniform (rh : Line) (oright : Char) (iw i W : Nat)
    (hW : iw + 2 = W) (L : List (Nat × Line)) :
    ∀ acc, (∀ q ∈ acc, q.2.length = W) →
    ∀ q ∈ L.foldl (rewrapStep rh oright iw i) acc, q.2.length = W := by
  induction L with
  | nil => intro acc h q hq; exact h q hq
  | cons x xs ih =>
      intro acc h
      rw [List.foldl_cons]
      exact ih _ (rewrapStep_uniform rh oright iw i W hW acc h x)

theorem foldl_groups_uniform (fixg : List (Nat × Line) → List (Nat × Line))
    (rh : Line) (oright : Char) (iw i W : Nat) (hW : iw + 2 = W)
    (gs : List (List (Nat × Line))) :
    ∀ acc, (∀ q ∈ acc, q.2.length = W) →
    ∀ q ∈ gs.foldl
        (fun acc g => (fixg g).foldl (rewrapStep rh oright iw i) acc) acc,
      q.2.length = W := by
  induction gs with
  | nil => intro acc h q hq; exact h q hq
  | cons g gs ih =>
      intro acc h
      rw [List.foldl_cons]
      exact ih _ (foldl_rewrap_uniform rh oright iw i W hW (fixg g) acc h)

theorem diag_run_headD_len (run : List (Nat × Line)) (oright : Char) (W : Nat)
    (hrun : ∀ p ∈ run, p.2.length = W)
    (hdiag : isDiagramBlock (run.map (fun p =>
      if 2 ≤ p.2.length ∧ p.2.getLast? = some oright
      then (p.2.drop 1).dropLast else p.2.drop 1)) = true) :
    2 ≤ W ∧ run ≠ [] := by
  rw [isDiagramBlock_count] at hdiag
  obtain ⟨hcount, _⟩ := hdiag
  have hpos : 0 < (run.map (fun p =>
      if 2 ≤ p.2.length ∧ p.2.getLast? = some oright
      then (p.2.drop 1).dropLast else p.2.drop 1)).countP borderStart := by
    omega
  obtain ⟨l, hl, hbl⟩ := List.countP_pos_iff.mp hpos
  obtain ⟨p, hp, hfp⟩ := List.mem_map.mp hl
  have hlne : l ≠ [] := borderStart_ne_nil l hbl
  have hp2 : 2 ≤ p.2.length := by
    by_cases hcase : 2 ≤ p.2.length ∧ p.2.getLast? = some oright
    · exact hcase.1
    · rw [if_neg hcase] at hfp
      by_contra hlt
      push_neg at hlt
      have hdn : p.2.drop 1 = [] := by
        rw [List.drop_eq_nil_iff]
        omega
      exact hlne (hfp ▸ hdn)
  refine ⟨by rw [← hrun p hp]; exact hp2, ?_⟩
  intro hrn
  rw [hrn] at hp
  simp at hp

theorem fixNestedLoopWith_uniform
    (fixg : List (Nat × Line) → List (Nat × Line)) (W : Nat) :
    ∀ (k : Nat) (res : List (Nat × Line)) (i : Nat),
      (∀ q ∈ res, q.2.length = W) →
      ∀ q ∈ fixNestedLoopWith fixg k res i, q.2.length = W := by
  intro k
  induction k with
  | zero =>
      intro res i h q hq
      simp only [fixNestedLoopWith] at hq
      exact h q hq
  | succ k ih =>
      intro res i h q hq
      unfold fixNestedLoopWith at hq
      split at hq
      case isFalse => exact h q hq
      case isTrue hlt =>
        split at hq
        case h_1 => exact ih res (i + 1) h q hq
        case h_2 c rest heq =>
          split at hq
          case isFalse => exact ih res (i + 1) h q hq
          case isTrue hcv =>
            dsimp only at hq
            split at hq
            case isTrue => exact ih res _ h q hq
            case isFalse hre =>
              split at hq
              case isTrue => exact ih res _ h q hq
              case isFalse hnd =>
                have hdiag : isDiagramBlock
                    (((res.drop i).take (runEnd res c i - i)).map (fun p =>
                      if 2 ≤ p.2.length ∧ p.2.getLast? = some (RIGHT_BORDER c)
                      then (p.2.drop 1).dropLast else p.2.drop 1)) = true := by
                  revert hnd
                  cases isDiagramBlock
                    (((res.drop i).take (runEnd res c i - i)).map (fun p =>
                      if 2 ≤ p.2.length ∧ p.2.getLast? = some (RIGHT_BORDER c)
                      then (p.2.drop 1).dropLast else p.2.drop 1)) <;> simp
                have hrun : ∀ p ∈ (res.drop i).take (runEnd res c i - i),
                    p.2.length = W := fun p hp =>
                  h p (List.mem_of_mem_drop (List.mem_of_mem_take hp))
                have hfacts := diag_run_headD_len _ (RIGHT_BORDER c) W hrun hdiag
                have hheadW :
                    (((res.drop i).take (runEnd res c i - i)).headD (0, [])).2.length
                      = W :=
                  hrun _ (headD_mem _ _ hfacts.2)
                have hW :
                    ((((res.drop i).take (runEnd res c i - i)).headD (0, [])).2.length
                      - 2) + 2 = W := by
                  rw [hheadW]
                  omega
                exact ih _ _
                  (foldl_groups_uniform fixg _ (RIGHT_BORDER c) _ i W hW
                    (splitGroups _) res h) q hq

/-- Every line of `fixGroupF` output has length exactly the group's
target width, for every fuel value (shared helper for C2 and C3). -/
theorem fixGroupF_uniform (n : Nat) (group : List (Nat × Line))
    (hg : ∀ p ∈ group, borderStart p.2 = true) :
    ∀ q ∈ fixGroupF n group, q.2.length = targetWidth (group.map (·.2)) := by
  cases n with
  | zero =>
      simp only [fixGroupF]
      exact fixGroupPass_uniform group hg
  | succ n =>
      simp only [fixGroupF]
      exact fixNestedLoopWith_uniform (fixGroupF n) _ _ _ 0
        (fixGroupPass_uniform group hg)

/-- C2: for a group of border-starting lines, after `_fix_group` every
line (leading whitespace plus content) has the same total character
length, and this remains true after (another application of) the
nested-box repair pass. -/
theorem fixGroup_width_uniformity (group : List (Nat × Line))
    (hg : ∀ p ∈ group, borderStart p.2 = true) :
    (∀ q ∈ fixGroup group, ∀ q' ∈ fixGroup group,
       q.2.length = q'.2.length) ∧
    (∀ q ∈ fixNestedInGroup (fixGroup group),
       ∀ q' ∈ fixNestedInGroup (fixGroup group),
       q.2.length = q'.2.length) := by
  constructor
  · intro q hq q' hq'
    rw [fixGroupF_uniform _ group hg q hq, fixGroupF_uniform _ group hg q' hq']
  · intro q hq q' hq'
    have hu : ∀ r ∈ fixGroup group,
        r.2.length = targetWidth (group.map (·.2)) :=
      fixGroupF_uniform _ group hg
    unfold fixNestedInGroup at hq hq'
    rw [fixNestedLoopWith_uniform fixGroup _ _ _ 0 hu q hq,
        fixNestedLoopWith_uniform fixGroup _ _ _ 0 hu q' hq']

/-- Witness for `fixGroup_width_uniformity`. -/
theorem fixGroup_width_uniformity_witness :
    (∀ p ∈ [(0, "┌──┐".toList), (1, "│ x".toList)], borderStart p.2 = true) ∧
    ∀ q ∈ fixGroup [(0, "┌──┐".toList), (1, "│ x".toList)],
      ∀ q' ∈ fixGroup [(0, "┌──┐".toList), (1, "│ x".toList)],
      q.2.length = q'.2.length :=
  ⟨by decide,
   (fixGroup_width_uniformity [(0, "┌──┐".toList), (1, "│ x".toList)]
     (by decide)).1⟩

/-- Modelled from claim C3's words, for comparison with the source's
`targetWidth`: the per-line width obtained after removing both leading
and trailing whitespace (the source right-trims only). -/
def claimLineWidth (line : Line) : Option Nat :=
  match lstrip line with
  | [] => none
  | first :: _ =>
      if first ∈ LEFT_BORDER_CHARS ∧
          (rstrip line).getLast? ≠ some (RIGHT_BORDER first)
      then some ((strip line).length + 1) else some (strip line).length

/-- Modelled from claim C3's words: the group target width as the
maximum of the both-ways-trimmed line widths. -/
def claimTargetWidth (lines : List Line) : Nat :=
  (lines.filterMap claimLineWidth).foldr max 0

/-- Counterexample to C3 as stated: in the group
`["│a│", "  │bb│"]` the claimed target width (computed from
both-ways-trimmed lengths) is 4, and the claim predicts that the first
repaired line has total length `4 + 0` (its leading whitespace is
empty), but `_fix_group` produces `"│a   │"` of length 6: the source
computes widths from right-trimmed lines only, so leading whitespace
counts toward the target. -/
theorem claim_targetWidth_counterexample :
    claimTargetWidth ["│a│".toList, "  │bb│".toList] = 4 ∧
    fixGroup [(0, "│a│".toList), (1, "  │bb│".toList)] =
      [(0, "│a   │".toList), (1, "  │bb│".toList)] ∧
    ("│a│".toList.takeWhile pyWs).length = 0 ∧
    ("│a   │".toList).length ≠ 4 + 0 := by
  refine ⟨by decide, by decide, by decide, by decide⟩

/-- C3 (amended): the target width is the maximum over the group's
non-blank lines of the length of the right-trimmed line (leading
whitespace included), plus 1 when the line starts with a left-border
character but its right-trimmed form does not end with the matching
right-border character (0 for a group with only blank lines); after
repair every line's total length equals that target width. -/
theorem fixGroup_targetWidth (group : List (Nat × Line))
    (hg : ∀ p ∈ group, borderStart p.2 = true) :
    ∀ q ∈ fixGroup group, q.2.length = targetWidth (group.map (·.2)) :=
  fixGroupF_uniform _ group hg

/-- Witness for `fixGroup_targetWidth`. -/
theorem fixGroup_targetWidth_witness :
    (∀ p ∈ [(0, "├──┤".toList), (1, " │ x".toList)], borderStart p.2 = true) ∧
    ∀ q ∈ fixGroup [(0, "├──┤".toList), (1, " │ x".toList)],
      q.2.length = targetWidth
        ([(0, "├──┤".toList), (1, " │ x".toList)].map (·.2)) :=
  ⟨by decide,
   fixGroup_targetWidth [(0, "├──┤".toList), (1, " │ x".toList)] (by decide)⟩

/-! ### C5: block-processing predicate and passthrough -/

/-- C5: a closing fenced block is rewritten only when its tag is in the
diagram allow-list, its tag is not in the code-language deny-list, and
the diagram heuristic holds on its content; and a concrete
three-pipe-lines-plus-rule block tagged `python` — which satisfies the
heuristic — passes through `fix_diagrams` byte-identically. -/
theorem processClose_predicate_python_passthrough :
    (∀ (lines : List Line) (tag : Line) (fenceStart i : Nat),
       ¬(tag ∈ DIAGRAM_TAGS ∧ tag ∉ CODE_LANG_TAGS ∧
         isDiagramBlock ((lines.drop (fenceStart + 1)).take
             (i - (fenceStart + 1))) = true) →
       processClose lines tag fenceStart i = lines) ∧
    isDiagramBlock ["├──┤".toList, "|a|".toList, "|b|".toList,
      "|c|".toList] = true ∧
    fixDiagrams "```python\n├──┤\n|a|\n|b|\n|c|\n```\n".toList =
      "```python\n├──┤\n|a|\n|b|\n|c|\n```\n".toList := by
  refine ⟨?_, by decide, by decide⟩
  intro lines tag fenceStart i h
  unfold processClose
  rw [if_neg h]

/-- Witness for `processClose_predicate_python_passthrough`. -/
theorem processClose_predicate_python_passthrough_witness :
    ¬("python".toList ∈ DIAGRAM_TAGS ∧ "python".toList ∉ CODE_LANG_TAGS ∧
      isDiagramBlock ((splitNL
          "```python\n├──┤\n|a|\n|b|\n|c|\n```\n".toList).drop 1 |>.take 4)
        = true) ∧
    processClose (splitNL "```python\n├──┤\n|a|\n|b|\n|c|\n```\n".toList)
        "python".toList 0 5 =
      splitNL "```python\n├──┤\n|a|\n|b|\n|c|\n```\n".toList :=
  ⟨by decide,
   processClose_predicate_python_passthrough.1 _ _ 0 5 (by decide)⟩

/-! ### C6: nested-box re-wrapping -/

/-- Counterexample to C6 as stated: in the already-fixed group below
(`fixGroupPass` maps it to itself) every line carries one space of
leading whitespace, and the run's first line therefore begins with a
space.  The nested-box pass reassembles repaired inner lines as
`run[0][1][0] + inner + outer-right`, so each rewritten line begins with
the space `run[0][1][0]`, not with the outer-left border character `│`
claimed by C6. -/
theorem nested_rewrap_counterexample :
    fixGroupPass [(0, " │┌─┐  │".toList), (1, " ││a│  │".toList),
        (2, " │└─┘  │".toList)] =
      [(0, " │┌─┐  │".toList), (1, " ││a│  │".toList),
       (2, " │└─┘  │".toList)] ∧
    fixNestedInGroup [(0, " │┌─┐  │".toList), (1, " ││a│  │".toList),
        (2, " │└─┘  │".toList)] =
      [(0, " │┌─┐│ │".toList), (1, " ││a││ │".toList),
       (2, " │└─┘│ │".toList)] ∧
    (lstrip " │┌─┐  │".toList).head? = some '│' ∧
    (" │┌─┐│ │".toList).head? = some ' ' ∧ ' ' ≠ '│' :=
  ⟨by decide, by decide, by decide, by decide, by decide⟩

/-- C6 (amended): during nested re-wrapping inside an already-fixed
outer box, a repaired inner line of length at most `innerWidth`
(outer width − 2) is padded with trailing spaces to exactly
`innerWidth` and reassembled as the first character of the run's first
line (the outer-left border character only when that line has no
leading whitespace), then the padded inner text, then the outer
right-border character — total length `innerWidth + 2` — at its
original position; an inner line longer than `innerWidth` is left
exactly as it was after the outer fix. -/
theorem rewrapStep_behavior (rh : Line) (oright : Char) (iw i : Nat)
    (acc : List (Nat × Line)) (q : Nat × Line) :
    (q.2.length ≤ iw →
      rewrapStep rh oright iw i acc q =
        acc.set (i + q.1) ((acc.getD (i + q.1) (0, [])).1,
          rh.headD ' ' ::
            (q.2 ++ List.replicate (iw - q.2.length) ' ' ++ [oright])) ∧
      (rh.headD ' ' ::
          (q.2 ++ List.replicate (iw - q.2.length) ' ' ++ [oright])).length =
        iw + 2) ∧
    (iw < q.2.length → rewrapStep rh oright iw i acc q = acc) := by
  constructor
  · intro hle
    constructor
    · unfold rewrapStep
      rw [if_neg (by omega)]
    · simp only [List.length_cons, List.length_append, List.length_replicate,
        List.length_nil]
      omega
  · intro hlt
    unfold rewrapStep
    rw [if_pos hlt]

/-- Witness for `rewrapStep_behavior`. -/
theorem rewrapStep_behavior_witness :
    ("│x│".toList.length ≤ 4 ∧
     rewrapStep "│abcd│".toList '│' 4 0 [(7, "junk".toList), (8, "old".toList)]
         (1, "│x│".toList) =
       [(7, "junk".toList), (8, ('│' :: ("│x│ ".toList ++ ['│'])))]) ∧
    (4 < "│x12345│".toList.length ∧
     rewrapStep "│abcd│".toList '│' 4 0 [(7, "junk".toList), (8, "old".toList)]
         (1, "│x12345│".toList) =
       [(7, "junk".toList), (8, "old".toList)]) := by
  constructor
  · exact ⟨by decide, by
      rw [(rewrapStep_behavior "│abcd│".toList '│' 4 0
        [(7, "junk".toList), (8, "old".toList)] (1, "│x│".toList)).1
        (by decide) |>.1]
      decide⟩
  · exact ⟨by decide,
      (rewrapStep_behavior "│abcd│".toList '│' 4 0
        [(7, "junk".toList), (8, "old".toList)] (1, "│x12345│".toList)).2
        (by decide)⟩

/-! ### C7: fence delimiter matching -/

/-- Counterexample to C7 as stated: in the document below the only
fence delimiters are an opening backtick fence and a later `~~~` line.
If a `~~~` delimiter could not close a backtick-opened block, the block
would never close and the document would pass through unchanged; but
`fix_diagrams` rewrites the diagram lines between them, so the `~~~`
line did close the backtick-opened block. -/
theorem fence_kind_counterexample :
    fixDiagrams "```\n│a─│\n│b│\n│c│\n~~~\nx".toList =
      "```\n│a─│\n│b │\n│c │\n~~~\nx".toList ∧
    "```\n│a─│\n│b│\n│c│\n~~~\nx".toList ≠
      "```\n│a─│\n│b │\n│c │\n~~~\nx".toList :=
  ⟨by decide, by decide⟩

/-- Document used by the amended C7 theorem: an opening fence `f1`, a
three-line diagram, and a closing fence `f2`. -/
def mkFenceDoc (f1 f2 : Line) : Line :=
  f1 ++ "\n│a─│\n│b│\n│c│\n".toList ++ f2 ++ "\n".toList

/-- The same document with its diagram lines repaired. -/
def mkFenceDocFixed (f1 f2 : Line) : Line :=
  f1 ++ "\n│a─│\n│b │\n│c │\n".toList ++ f2 ++ "\n".toList

/-- C7 (amended): a fenced block is closed by the next fence delimiter
line of either kind — the closing delimiter need not match the opening
one.  For every combination of opening and closing delimiter kinds the
enclosed diagram block is processed. -/
theorem fence_kind_agnostic (f1 f2 : Line)
    (h1 : f1 = "```".toList ∨ f1 = "~~~".toList)
    (h2 : f2 = "```".toList ∨ f2 = "~~~".toList) :
    fixDiagrams (mkFenceDoc f1 f2) = mkFenceDocFixed f1 f2 := by
  rcases h1 with h1 | h1 <;> rcases h2 with h2 | h2 <;> subst h1 <;> subst h2 <;>
    decide

/-- Witness for `fence_kind_agnostic`: mixed delimiters. -/
theorem fence_kind_agnostic_witness :
    fixDiagrams (mkFenceDoc "```".toList "~~~".toList) =
      mkFenceDocFixed "```".toList "~~~".toList :=
  fence_kind_agnostic "```".toList "~~~".toList (Or.inl rfl) (Or.inr rfl)

/-! ### C1: idempotence -/

/-- The document on which `fix_diagrams` fails to be idempotent: a
fenced diagram whose first line carries one space of leading whitespace
while the nested box below it does not.  The nested-box pass reassembles
the inner lines behind `run[0][1][0]` — the leading space — producing
`" ┌──┐│"`; on a second run that line's first non-whitespace character
is `┌`, so it is treated as a top-level horizontal rule whose matching
right border `┐` is missing, and the repairer appends one. -/
def idemDoc : Line :=
  "```\n ││a││\n│┌─┐│\n││x││\n│└─┘│\n```\n".toList

/-- C1 fails on the code: evaluating `fix_diagrams` twice on `idemDoc`
gives a different result than evaluating it once. -/
theorem fixDiagrams_idempotence_failure :
    fixDiagrams idemDoc =
      "```\n ││a││\n ┌──┐│\n │x ││\n └──┘│\n```\n".toList ∧
    fixDiagrams (fixDiagrams idemDoc) =
      "```\n ││a│ │\n ┌──┐│┐\n │x │ │\n └──┘│┘\n```\n".toList ∧
    fixDiagrams (fixDiagrams idemDoc) ≠ fixDiagrams idemDoc :=
  ⟨by decide, by decide, by decide⟩

end Raggedy
